import Mathlib

/-!
Verification of the price-extraction pipeline of `src/app.py`
(competitor-pricing scraper).

Strings are modelled as `List Char`; Python's `re` patterns used by the
source are deterministic (their character classes are pairwise disjoint at
every choice point), so each is translated as a maximal-munch scanner.
Python `time.time()` instants are modelled as `ℚ`.  Python dicts are
modelled as records / association lists; the aliasing of the nested
`all_prices` list (a Python list object) is modelled through an explicit
heap of lists addressed by `Nat`, so that shallow-vs-deep copying is
observable.
-/

/-- Characters accepted by `\d` in the source's patterns (ASCII digits). -/
def isDigit (c : Char) : Bool := '0' ≤ c && c ≤ '9'

/-- Characters accepted by the class `[\d,]` of the price pattern. -/
def isDigitComma (c : Char) : Bool := isDigit c || c = ','

/-- ASCII whitespace, as matched by `\s` and stripped by `str.strip()`
(unicode whitespace beyond ASCII is not modelled). -/
def isSpace (c : Char) : Bool :=
  c = ' ' || c = '\t' || c = '\n' || c = '\r' || c = '\x0b' || c = '\x0c'

/-- Python `str.strip()`: remove leading and trailing whitespace. -/
def pyStrip (s : List Char) : List Char :=
  ((s.dropWhile isSpace).reverse.dropWhile isSpace).reverse

/-- Python `str.lower()` (ASCII case folding). -/
def pyLower (s : List Char) : List Char := s.map Char.toLower

/-- Python `text.find(needle)`: index of the first occurrence, as an
`Option` (the source only uses `find` under an `in` guard, so the `-1`
failure value is modelled as `none`). -/
def strFind (hay needle : List Char) : Option Nat :=
  ((List.range (hay.length + 1)).filter
    (fun i => needle.isPrefixOf (hay.drop i))).head?

/-- Python `text.rfind(needle)`: index of the last occurrence. -/
def strRFind (hay needle : List Char) : Option Nat :=
  ((List.range (hay.length + 1)).filter
    (fun i => needle.isPrefixOf (hay.drop i))).getLast?

/-- Python `needle in hay` for strings. -/
def strContains (hay needle : List Char) : Bool := (strFind hay needle).isSome

/-- Python slice `s[a:b]` for `a ≤ b` (the source always slices with
`max(0, i - k)` as the lower bound, which truncated `Nat` subtraction
gives directly). -/
def pySlice (s : List Char) (a b : Nat) : List Char := (s.drop a).take (b - a)

/-- One attempt of the pattern `\$[\d,]+\.?\d*` at the head of the input:
returns the matched token and the remaining input.  The pattern is
deterministic (no backtracking can succeed where maximal munch fails),
so greedy scanning is faithful to Python `re`. -/
def matchPriceAt (cs : List Char) : Option (List Char × List Char) :=
  match cs with
  | [] => none
  | c :: rest =>
    if c = '$' then
      if (rest.takeWhile isDigitComma).isEmpty then none
      else
        match rest.dropWhile isDigitComma with
        | '.' :: rest2 =>
            some (c :: rest.takeWhile isDigitComma ++
                    '.' :: rest2.takeWhile isDigit,
                  rest2.dropWhile isDigit)
        | rest1 => some (c :: rest.takeWhile isDigitComma, rest1)
    else none

theorem dropWhile_length_le (p : Char → Bool) (l : List Char) :
    (l.dropWhile p).length ≤ l.length := by
  induction l with
  | nil => simp [List.dropWhile]
  | cons x xs ih =>
    by_cases h : p x
    · simp only [List.dropWhile, h, List.length_cons]
      omega
    · simp [List.dropWhile, h]

theorem matchPriceAt_rest_lt {cs tok rest : List Char}
    (h : matchPriceAt cs = some (tok, rest)) : rest.length < cs.length := by
  cases cs with
  | nil => simp [matchPriceAt] at h
  | cons c cs' =>
    have hdw := dropWhile_length_le isDigitComma cs'
    simp only [matchPriceAt] at h
    split at h
    · split at h
      · exact absurd h (by simp)
      · split at h
        next rest2 heq =>
          simp only [Option.some.injEq, Prod.mk.injEq] at h
          obtain ⟨-, hr⟩ := h
          subst hr
          have h2 := dropWhile_length_le isDigit rest2
          have : rest2.length + 1 ≤ cs'.length := by
            rw [heq] at hdw
            simpa using hdw
          simp only [List.length_cons]
          omega
        next rest1 _ =>
          simp only [Option.some.injEq, Prod.mk.injEq] at h
          have hr := h.2
          subst hr
          simp only [List.length_cons]
          omega
    · simp at h

/-- Scanner loop for `\$[\d,]+\.?\d*`, structurally recursive on a fuel
bound: every step consumes at least one character
(`matchPriceAt_rest_lt`), so fuel equal to the input length never runs
out. -/
def findAllPricesAux : Nat → List Char → List (List Char)
  | 0, _ => []
  | _ + 1, [] => []
  | fuel + 1, c :: t =>
    match matchPriceAt (c :: t) with
    | some (tok, rest) => tok :: findAllPricesAux fuel rest
    | none => findAllPricesAux fuel t

/-- `re.findall(r"\$[\d,]+\.?\d*", text)`: scan left to right, emitting
non-overlapping leftmost matches. -/
def findAllPrices (cs : List Char) : List (List Char) :=
  findAllPricesAux cs.length cs

/-- One attempt of the pattern `[\d,]+(?:\.\d{2})?` at the head of the
input (the JB Hi-Fi "Ticket" number pattern). -/
def matchNumAt (cs : List Char) : Option (List Char × List Char) :=
  if (cs.takeWhile isDigitComma).isEmpty then none
  else
    match cs.dropWhile isDigitComma with
    | '.' :: d1 :: d2 :: rest2 =>
        if isDigit d1 && isDigit d2 then
          some (cs.takeWhile isDigitComma ++ ['.', d1, d2], rest2)
        else some (cs.takeWhile isDigitComma, cs.dropWhile isDigitComma)
    | _ => some (cs.takeWhile isDigitComma, cs.dropWhile isDigitComma)

theorem takeWhile_ne_nil_length_pos {p : Char → Bool} {l : List Char}
    (h : ¬ (l.takeWhile p).isEmpty) :
    (l.dropWhile p).length < l.length := by
  induction l with
  | nil => simp [List.takeWhile] at h
  | cons x xs ih =>
    by_cases hp : p x
    · simp only [List.dropWhile, hp]
      have := dropWhile_length_le p xs
      simp only [List.length_cons]
      omega
    · simp [List.takeWhile, hp] at h

theorem matchNumAt_rest_lt {cs tok rest : List Char}
    (h : matchNumAt cs = some (tok, rest)) : rest.length < cs.length := by
  simp only [matchNumAt] at h
  split at h
  · exact absurd h (by simp)
  next hne =>
    have hlt := takeWhile_ne_nil_length_pos hne
    split at h
    next d1 d2 rest2 heq =>
      split at h
      · simp only [Option.some.injEq, Prod.mk.injEq] at h
        have hr := h.2
        subst hr
        rw [heq] at hlt
        simp only [List.length_cons] at hlt
        omega
      · simp only [Option.some.injEq, Prod.mk.injEq] at h
        have hr := h.2
        subst hr
        exact hlt
    next =>
      simp only [Option.some.injEq, Prod.mk.injEq] at h
      have hr := h.2
      subst hr
      exact hlt

/-- Scanner loop for `[\d,]+(?:\.\d{2})?` on a fuel bound sufficient by
`matchNumAt_rest_lt`. -/
def findAllNumsAux : Nat → List Char → List (List Char)
  | 0, _ => []
  | _ + 1, [] => []
  | fuel + 1, c :: t =>
    match matchNumAt (c :: t) with
    | some (tok, rest) => tok :: findAllNumsAux fuel rest
    | none => findAllNumsAux fuel t

/-- `re.findall(r"[\d,]+(?:\.\d{2})?", text)`. -/
def findAllNums (cs : List Char) : List (List Char) :=
  findAllNumsAux cs.length cs

/-- The literal `EASAVE` promotional suffix token. -/
def easaveS : List Char := "EASAVE".toList

/-- One attempt of the pattern `\$[\d,]+\.?\d*\s*EASAVE` at the head of
the input. -/
def matchEasaveAt (cs : List Char) : Option (List Char × List Char) :=
  match matchPriceAt cs with
  | none => none
  | some (tok, rest) =>
    if easaveS.isPrefixOf (rest.dropWhile isSpace) then
      some (tok ++ rest.takeWhile isSpace ++ easaveS,
            (rest.dropWhile isSpace).drop easaveS.length)
    else none

theorem matchEasaveAt_rest_lt {cs tok rest : List Char}
    (h : matchEasaveAt cs = some (tok, rest)) : rest.length < cs.length := by
  simp only [matchEasaveAt] at h
  split at h
  · exact absurd h (by simp)
  next tok0 rest0 heq =>
    split at h
    · simp only [Option.some.injEq, Prod.mk.injEq] at h
      have hr := h.2
      subst hr
      have h1 := matchPriceAt_rest_lt heq
      have h2 := dropWhile_length_le isSpace rest0
      have h3 := List.length_drop easaveS.length (rest0.dropWhile isSpace)
      omega
    · exact absurd h (by simp)

/-- Scanner loop for `\$[\d,]+\.?\d*\s*EASAVE` on a fuel bound
sufficient by `matchEasaveAt_rest_lt`. -/
def findAllEasaveAux : Nat → List Char → List (List Char)
  | 0, _ => []
  | _ + 1, [] => []
  | fuel + 1, c :: t =>
    match matchEasaveAt (c :: t) with
    | some (tok, rest) => tok :: findAllEasaveAux fuel rest
    | none => findAllEasaveAux fuel t

/-- `re.findall(r"\$[\d,]+\.?\d*\s*EASAVE", text)`. -/
def findAllEasave (cs : List Char) : List (List Char) :=
  findAllEasaveAux cs.length cs

/-- The full-string match `re.match(r"^[\d,]+(?:\.\d{2})?$", text)` used by
the JB Hi-Fi structured branch: digits/commas, optionally a dot and
exactly two digits. -/
def isNumericPrice2dp (s : List Char) : Bool :=
  !(s.takeWhile isDigitComma).isEmpty &&
    (match s.dropWhile isDigitComma with
     | [] => true
     | ['.', d1, d2] => isDigit d1 && isDigit d2
     | _ => false)

/-- The full-string match `re.match(r"^[\d,]+\.?\d*$", content)` used by
the generic `meta` selector branch: digits/commas, optionally a dot and
any number of digits. -/
def isNumericContent (s : List Char) : Bool :=
  !(s.takeWhile isDigitComma).isEmpty &&
    (match s.dropWhile isDigitComma with
     | [] => true
     | '.' :: ds => ds.all isDigit
     | _ => false)

/-- `re.sub(r"[$,]", "", price)`. -/
def stripDollarComma (s : List Char) : List Char :=
  s.filter (fun c => !(c = '$' || c = ','))

/-- Digit list to natural number. -/
def digitsToNat (ds : List Char) : Nat :=
  ds.foldl (fun a c => a * 10 + (c.toNat - 48)) 0

/-- Python `float(s)` restricted to the decimal forms that can reach it
here (the result of stripping `$` and `,` from a price token:
`digits [ '.' digits ]` with at least one digit).  Returns the value as
a scaled integer `(n, k)` meaning `n / 10^k`; `none` models `ValueError`.
IEEE-754 rounding is not modelled: for the magnitudes the comparison
`value > 100` is applied to, rounding cannot cross the threshold. -/
def parseDecimal (s : List Char) : Option (Nat × Nat) :=
  match s.dropWhile isDigit with
  | [] => if (s.takeWhile isDigit).isEmpty then none
          else some (digitsToNat (s.takeWhile isDigit), 0)
  | '.' :: fr =>
      if fr.all isDigit && !((s.takeWhile isDigit).isEmpty && fr.isEmpty) then
        some (digitsToNat (s.takeWhile isDigit ++ fr), fr.length)
      else none
  | _ => none

/-- `float(re.sub(r"[$,]", "", price)) > 100`, `False` when the
conversion raises. -/
def exceeds100 (t : List Char) : Bool :=
  match parseDecimal (stripDollarComma t) with
  | none => false
  | some (n, k) => decide (100 * 10 ^ k < n)

/-- The fallback loop of `_find_main_price`: first token whose numeric
value exceeds 100, skipping tokens whose conversion raises. -/
def fallbackLoop : List (List Char) → Option (List Char)
  | [] => none
  | t :: ts =>
    match parseDecimal (stripDollarComma t) with
    | none => fallbackLoop ts
    | some (n, k) => if 100 * 10 ^ k < n then some t else fallbackLoop ts

/-- `list(dict.fromkeys(l))`: deduplicate keeping the first occurrence,
preserving order (accumulator of already-seen elements). -/
def dedupSeen {α : Type} [DecidableEq α] (seen : List α) : List α → List α
  | [] => []
  | x :: xs =>
    if x ∈ seen then dedupSeen seen xs else x :: dedupSeen (x :: seen) xs

/-- `list(dict.fromkeys(l))`. -/
def dedupFirst {α : Type} [DecidableEq α] (l : List α) : List α :=
  dedupSeen [] l

/-- Index of the first occurrence of `a` in `l` (length of `l` when
absent); the position `all_prices` order is measured by. -/
def firstIdx {α : Type} [DecidableEq α] : List α → α → Nat
  | [], _ => 0
  | x :: xs, a => if x = a then 0 else firstIdx xs a + 1

/-- Address of a Python list object in the explicit heap. -/
abbrev Addr := Nat

/-- Heap of Python list objects (here: lists of price tokens); an address
is an index, allocation appends. -/
abbrev Heap := List (List (List Char))

/-- The result dict built by `PriceScraper.extract_price`.  Keys that the
source only sometimes adds (`title`, `price`, `all_prices`, `error`,
`cache_hit`) are `Option`al; `all_prices` holds the heap address of the
list object, so that Python's reference semantics for the nested list is
preserved.  `timestamp` abstracts the ISO-8601 instant as the clock value,
`load_time_ms` the measured elapsed time. -/
structure ResultRec where
  success : Bool
  url : List Char
  title : Option (List Char) := none
  price : Option (List Char) := none
  all_prices : Option Addr := none
  timestamp : ℚ
  load_time_ms : Nat
  error : Option (List Char) := none
  cache_hit : Option Bool := none
deriving DecidableEq

/-- The `all_prices` list actually observable through a result record:
the heap cell its `all_prices` field points at. -/
def derefAllPrices (h : Heap) (r : ResultRec) : Option (List (List Char)) :=
  r.all_prices.bind (fun a => h[a]?)

/-- `SimpleCache`: TTL and the backing dict `_store`, an insertion-ordered
association list `key ↦ (value, timestamp)`. -/
structure SimpleCache where
  ttl : ℚ
  store : List (List Char × ResultRec × ℚ)

/-- `self._store[key]` lookup (unique keys: first match). -/
def lookupEntry (c : SimpleCache) (key : List Char) : Option (ResultRec × ℚ) :=
  (c.store.find? (fun e => e.1 == key)).map (fun e => e.2)

/-- The value currently stored under `key`. -/
def storedValue (c : SimpleCache) (key : List Char) : Option ResultRec :=
  (lookupEntry c key).map (fun e => e.1)

/-- Python `del self._store[key]` (keys are unique, order preserved). -/
def pyDel (l : List (List Char × ResultRec × ℚ)) (key : List Char) :
    List (List Char × ResultRec × ℚ) :=
  l.filter (fun e => !(e.1 == key))

/-- `SimpleCache.get`: absent if unknown; expired (age strictly above the
TTL) entries are deleted and reported absent; otherwise the value is
returned via `value.copy()` — a top-level (shallow) dict copy, which in
this value-level model is the record itself, sharing the `all_prices`
heap address.  Returns the read result and the possibly-updated cache. -/
def SimpleCache.get (c : SimpleCache) (now : ℚ) (key : List Char) :
    Option ResultRec × SimpleCache :=
  match lookupEntry c key with
  | none => (none, c)
  | some (v, ts) =>
    if now - ts > c.ttl then (none, { c with store := pyDel c.store key })
    else (some v, c)

/-- Stable insertion sort by insertion timestamp (Python `sorted` with
`key=lambda x: x[1][1]`). -/
def insertByTime (e : List Char × ResultRec × ℚ) :
    List (List Char × ResultRec × ℚ) → List (List Char × ResultRec × ℚ)
  | [] => [e]
  | x :: xs => if e.2.2 < x.2.2 then e :: x :: xs else x :: insertByTime e xs

/-- Entries sorted by insertion time ascending. -/
def sortByTime (l : List (List Char × ResultRec × ℚ)) :
    List (List Char × ResultRec × ℚ) :=
  l.foldl (fun acc e => insertByTime e acc) []

/-- Python dict assignment `d[k] = v`: replace in place if present,
append otherwise. -/
def storeSet : List (List Char × ResultRec × ℚ) → List Char → ResultRec → ℚ →
    List (List Char × ResultRec × ℚ)
  | [], k, v, ts => [(k, v, ts)]
  | e :: rest, k, v, ts =>
    if e.1 = k then (k, v, ts) :: rest else e :: storeSet rest k v ts

/-- `SimpleCache.set`: when more than 1000 entries are present, remove the
100 oldest (by insertion time) before inserting the (shallow-copied)
value stamped with the current time. -/
def SimpleCache.set (c : SimpleCache) (key : List Char) (v : ResultRec)
    (now : ℚ) : SimpleCache :=
  let store1 :=
    if c.store.length > 1000 then
      let removedKeys := ((sortByTime c.store).take 100).map (fun e => e.1)
      c.store.filter (fun e => !(removedKeys.contains e.1))
    else c.store
  { c with store := storeSet store1 key v now }

/-- Outcome of one `page.query_selector` probe together with the
subsequent text/attribute read: an exception (caught and treated as "try
next selector"), no element, or an element with its text (`none` models a
missing `content` attribute). -/
inductive QueryOutcome where
  | err : QueryOutcome
  | notFound : QueryOutcome
  | elem : Option (List Char) → QueryOutcome

/-- The rendered page as the extractor sees it: per-selector query
outcomes, the body inner text, and the evaluated title. -/
structure PageData where
  query : List Char → QueryOutcome
  text : List Char
  title : List Char

/-- Site / marker strings of `_extract_structured_price` and
`_find_main_price`. -/
def jbhifiS : List Char := "jbhifi".toList

def harveyS : List Char := "harveynorman".toList

def owS : List Char := "officeworks".toList

def availS : List Char := "Available on".toList

def fromS : List Char := "FROM".toList

def loginS : List Char := "Log in to see if you have coupons".toList

def ticketS : List Char := "Ticket".toList

def owPhraseS : List Char := "Ways you can get it".toList

/-- The JB Hi-Fi-specific selector list, in order. -/
def jbSelectors : List (List Char) :=
  ["span[class*=\"PriceTag_actual\"]",
   "span[class*=\"PriceFont_fontStyle\"]",
   ".price__current",
   "[data-testid=\"price-display\"]"].map String.toList

/-- The generic selector list, in order. -/
def genericSelectors : List (List Char) :=
  ["[itemprop=\"price\"]",
   "[data-testid*=\"price\"]",
   ".price",
   ".product-price",
   ".current-price",
   "meta[itemprop=\"price\"]"].map String.toList

/-- Option alternative, modelling "if this branch returned, use it,
otherwise keep going" for the source's sequential early returns. -/
def orElseO {α : Type} (a b : Option α) : Option α :=
  match a with
  | some x => some x
  | none => b

/-- First selector that yields a result. -/
def firstSome {α β : Type} (f : α → Option β) : List α → Option β
  | [] => none
  | x :: xs => orElseO (f x) (firstSome f xs)

/-- One JB Hi-Fi selector probe: strip the element text; a purely numeric
text (digits/commas, optionally exactly two decimals) is returned with
the `$` prefix; otherwise `re.search(r"\$[\d,]+\.?\d*", text)`. -/
def jbSelectorStep (page : PageData) (sel : List Char) : Option (List Char) :=
  match page.query sel with
  | QueryOutcome.elem (some t0) =>
    if isNumericPrice2dp (pyStrip t0) then some ('$' :: pyStrip t0)
    else (findAllPrices (pyStrip t0)).head?
  | _ => none

/-- One generic selector probe: the `meta` selector reads the `content`
attribute and only normalizes a numeric value with the `$` prefix; the
other selectors only `re.search` for a `$`-prefixed token in the element
text. -/
def genericSelectorStep (page : PageData) (sel : List Char) :
    Option (List Char) :=
  if "meta".toList.isPrefixOf sel then
    match page.query sel with
    | QueryOutcome.elem (some content) =>
      if isNumericContent content then some ('$' :: content) else none
    | _ => none
  else
    match page.query sel with
    | QueryOutcome.elem (some t) => (findAllPrices t).head?
    | _ => none

/-- `PriceScraper._extract_structured_price`: JB Hi-Fi selectors first
(for URLs whose lowercase form contains `jbhifi`), then the generic
selectors; first hit wins, exhaustion yields the empty string. -/
def extract_structured_price (page : PageData) (url : List Char) :
    List Char :=
  match
    (if strContains (pyLower url) jbhifiS then
       firstSome (jbSelectorStep page) jbSelectors
     else none) with
  | some p => p
  | none => (firstSome (genericSelectorStep page) genericSelectors).getD []

/-- The EASAVE step of the Harvey Norman branch: last match of
`\$[\d,]+\.?\d*\s*EASAVE` in the window, then the first price token
inside that match. -/
def easaveStep (w : List Char) : Option (List Char) :=
  (findAllEasave w).getLast?.bind (fun m => (findAllPrices m).head?)

/-- The FROM step of the Harvey Norman branch: first price token after
the last occurrence of `FROM` in the window. -/
def fromStep (w : List Char) : Option (List Char) :=
  if strContains w fromS then
    (strRFind w fromS).bind (fun fi => (findAllPrices (w.drop fi)).head?)
  else none

/-- The Harvey Norman window logic: EASAVE price, else FROM price, else
the last price token of the window. -/
def harveyInner (w : List Char) : Option (List Char) :=
  orElseO (easaveStep w) (orElseO (fromStep w) (findAllPrices w).getLast?)

/-- The Harvey Norman branch of `_find_main_price`: active when the URL
contains `harveynorman` and the text contains `Available on`; searches
the 500 characters before the first anchor occurrence. -/
def harveyRule (text ul : List Char) : Option (List Char) :=
  if strContains ul harveyS && strContains text availS then
    match strFind text availS with
    | some mi => harveyInner (pySlice text (mi - 500) mi)
    | none => none
  else none

/-- The JB Hi-Fi branch of `_find_main_price`: last price in the 300
characters before the login prompt; else the second (or only) numeric
token in the 100-character window starting at `Ticket`. -/
def jbRule (text ul : List Char) : Option (List Char) :=
  if strContains ul jbhifiS then
    orElseO
      (if strContains text loginS then
         match strFind text loginS with
         | some i => (findAllPrices (pySlice text (i - 300) i)).getLast?
         | none => none
       else none)
      (if strContains text ticketS then
         match strFind text ticketS with
         | some i =>
           match findAllNums (pySlice text i (i + 100)) with
           | [] => none
           | [n] => some ('$' :: n)
           | _ :: n1 :: _ => some ('$' :: n1)
         | none => none
       else none)
  else none

/-- The Officeworks branch of `_find_main_price`: last price in the 300
characters before the delivery-options phrase. -/
def owRule (text ul : List Char) : Option (List Char) :=
  if strContains ul owS && strContains text owPhraseS then
    match strFind text owPhraseS with
    | some i => (findAllPrices (pySlice text (i - 300) i)).getLast?
    | none => none
  else none

/-- The site-class portion of `_find_main_price` (the sequence of
early-returning branches before the generic fallback). -/
def siteRulePrice (text ul : List Char) : Option (List Char) :=
  orElseO (harveyRule text ul) (orElseO (jbRule text ul) (owRule text ul))

/-- The generic fallback of `_find_main_price`: first token whose value
exceeds 100, else the first token, else the empty string. -/
def genericFallback (all_prices : List (List Char)) : List Char :=
  match fallbackLoop all_prices with
  | some p => p
  | none =>
    match all_prices with
    | [] => []
    | p :: _ => p

/-- `PriceScraper._find_main_price(text, all_prices, url)`. -/
def find_main_price (text : List Char) (all_prices : List (List Char))
    (url : List Char) : List Char :=
  match siteRulePrice text (pyLower url) with
  | some p => p
  | none => genericFallback all_prices

/-- Python's short-circuit `a or f()` on strings: keeps a non-empty `a`
without evaluating `f`; the second component records whether the
right-hand side (the heuristic extractor) was consulted. -/
def mainPriceChoice (s : List Char) (f : Unit → List Char) :
    List Char × Bool :=
  if s = [] then (f (), true) else (s, false)

/-- The MD5-hexdigest cache key.  The digest itself is an external
library; it is deterministic, so equal URLs always give equal keys, and
the claims under verification do not depend on collisions, so the key is
modelled as the URL itself. -/
def fingerprint (url : List Char) : List Char := url

/-- The per-request environment: the URL and the outcome of the
fetch/render phase (`Except.error` models any exception raised while
navigating or reading the page, caught by the top-level handler), plus
the clock value and the measured elapsed milliseconds. -/
structure ScrapeEnv where
  url : List Char
  fetch : Except (List Char) PageData
  tNow : ℚ
  loadMs : Nat

/-- `PriceScraper.extract_price`: cache lookup by fingerprint; on a hit,
return the (shallow) copy flagged `cache_hit`; on a miss, either the
failure record (fetch error) or the assembled success record, which is
cached and whose `all_prices` list is freshly allocated on the heap.
The function is total: no execution path raises. -/
def extract_price (env : ScrapeEnv) (c : SimpleCache) (h : Heap) :
    ResultRec × SimpleCache × Heap :=
  let key := fingerprint env.url
  let g := SimpleCache.get c env.tNow key
  match g.1 with
  | some cached => ({ cached with cache_hit := some true }, g.2, h)
  | none =>
    match env.fetch with
    | Except.error msg =>
      ({ success := false, url := env.url, error := some msg,
         timestamp := env.tNow, load_time_ms := env.loadMs }, g.2, h)
    | Except.ok page =>
      let structured := extract_structured_price page env.url
      let all_prices := findAllPrices page.text
      let main := (mainPriceChoice structured
        (fun _ => find_main_price page.text all_prices env.url)).1
      let result : ResultRec :=
        { success := true, url := env.url,
          title := some (pyStrip page.title),
          price := some main,
          all_prices := some h.length,
          timestamp := env.tNow, load_time_ms := env.loadMs }
      (result, SimpleCache.set g.2 key result env.tNow,
       h ++ [(dedupFirst all_prices).take 10])

theorem mem_dedupSeen {α : Type} [DecidableEq α] (seen l : List α) (a : α) :
    a ∈ dedupSeen seen l ↔ a ∈ l ∧ a ∉ seen := by
  induction l generalizing seen with
  | nil => simp [dedupSeen]
  | cons x xs ih =>
    by_cases hx : x ∈ seen
    · simp only [dedupSeen, if_pos hx, ih, List.mem_cons]
      constructor
      · rintro ⟨h1, h2⟩
        exact ⟨Or.inr h1, h2⟩
      · rintro ⟨h1 | h1, h2⟩
        · exact absurd (h1 ▸ hx) h2
        · exact ⟨h1, h2⟩
    · simp only [dedupSeen, if_neg hx, List.mem_cons, ih]
      constructor
      · rintro (h1 | ⟨h1, h2⟩)
        · exact ⟨Or.inl h1, h1 ▸ hx⟩
        · exact ⟨Or.inr h1, fun hs => h2 (Or.inr hs)⟩
      · rintro ⟨h1 | h1, h2⟩
        · exact Or.inl h1
        · by_cases hax : a = x
          · exact Or.inl hax
          · refine Or.inr ⟨h1, ?_⟩
            rintro (h3 | h3)
            · exact hax h3
            · exact h2 h3

theorem nodup_dedupSeen {α : Type} [DecidableEq α] (seen l : List α) :
    (dedupSeen seen l).Nodup := by
  induction l generalizing seen with
  | nil => simp [dedupSeen]
  | cons x xs ih =>
    by_cases hx : x ∈ seen
    · simpa only [dedupSeen, if_pos hx] using ih seen
    · simp only [dedupSeen, if_neg hx]
      refine List.nodup_cons.mpr ⟨?_, ih _⟩
      intro hmem
      exact ((mem_dedupSeen _ _ _).1 hmem).2 (List.mem_cons_self x seen)

theorem dedupSeen_sublist {α : Type} [DecidableEq α] (seen l : List α) :
    List.Sublist (dedupSeen seen l) l := by
  induction l generalizing seen with
  | nil => simp [dedupSeen]
  | cons x xs ih =>
    by_cases hx : x ∈ seen
    · simpa only [dedupSeen, if_pos hx] using (ih seen).cons x
    · simpa only [dedupSeen, if_neg hx] using (ih (x :: seen)).cons₂ x

theorem firstIdx_cons_self {α : Type} [DecidableEq α] (x : α) (xs : List α) :
    firstIdx (x :: xs) x = 0 := by
  simp [firstIdx]

theorem firstIdx_cons_ne {α : Type} [DecidableEq α] {x a : α} (xs : List α)
    (h : x ≠ a) : firstIdx (x :: xs) a = firstIdx xs a + 1 := by
  simp [firstIdx, h]

theorem pairwise_firstIdx_dedupSeen {α : Type} [DecidableEq α]
    (seen l : List α) :
    (dedupSeen seen l).Pairwise (fun a b => firstIdx l a < firstIdx l b) := by
  induction l generalizing seen with
  | nil => simp [dedupSeen]
  | cons x xs ih =>
    by_cases hx : x ∈ seen
    · simp only [dedupSeen, if_pos hx]
      refine (ih seen).imp_of_mem ?_
      intro a b ha hb hab
      have hax : x ≠ a := fun he =>
        ((mem_dedupSeen _ _ _).1 ha).2 (he ▸ hx)
      have hbx : x ≠ b := fun he =>
        ((mem_dedupSeen _ _ _).1 hb).2 (he ▸ hx)
      rw [firstIdx_cons_ne xs hax, firstIdx_cons_ne xs hbx]
      omega
    · simp only [dedupSeen, if_neg hx]
      refine List.pairwise_cons.mpr ⟨?_, ?_⟩
      · intro b hb
        have hbx : x ≠ b := by
          intro he
          exact ((mem_dedupSeen _ _ _).1 hb).2 (he ▸ List.mem_cons_self x seen)
        rw [firstIdx_cons_self, firstIdx_cons_ne xs hbx]
        omega
      · refine (ih (x :: seen)).imp_of_mem ?_
        intro a b ha hb hab
        have hax : x ≠ a := by
          intro he
          exact ((mem_dedupSeen _ _ _).1 ha).2 (he ▸ List.mem_cons_self x seen)
        have hbx : x ≠ b := by
          intro he
          exact ((mem_dedupSeen _ _ _).1 hb).2 (he ▸ List.mem_cons_self x seen)
        rw [firstIdx_cons_ne xs hax, firstIdx_cons_ne xs hbx]
        omega

theorem getElem?_append_singleton {α : Type} (l : List α) (a : α) :
    (l ++ [a])[l.length]? = some a := by
  induction l with
  | nil => rfl
  | cons x xs ih => simpa using ih

theorem fallbackLoop_eq_find (l : List (List Char)) :
    fallbackLoop l = l.find? exceeds100 := by
  induction l with
  | nil => rfl
  | cons t ts ih =>
    simp only [fallbackLoop, List.find?, exceeds100]
    match h : parseDecimal (stripDollarComma t) with
    | none => simpa [h] using ih
    | some (n, k) =>
      by_cases hc : 100 * 10 ^ k < n
      · simp [h, hc]
      · simpa [h, hc] using ih

theorem get_isSome_state (c : SimpleCache) (now : ℚ) (key : List Char)
    (h : (SimpleCache.get c now key).1.isSome = true) :
    (SimpleCache.get c now key).2 = c := by
  unfold SimpleCache.get at h ⊢
  match hl : lookupEntry c key with
  | none => simp [hl]
  | some (v, ts) =>
    simp only [hl] at h ⊢
    by_cases hexp : now - ts > c.ttl
    · simp [hexp] at h
    · simp [hexp]

theorem get_state_store_subset {c : SimpleCache} {now : ℚ} {key : List Char}
    {e : List Char × ResultRec × ℚ}
    (h : e ∈ (SimpleCache.get c now key).2.store) : e ∈ c.store := by
  unfold SimpleCache.get at h
  revert h
  match hl : lookupEntry c key with
  | none => intro h; simpa using h
  | some (v, ts) =>
    intro h
    simp only at h
    by_cases hexp : now - ts > c.ttl
    · simp only [hexp, if_pos] at h
      exact (List.mem_filter.1 h).1
    · simpa [hexp] using h

theorem get_some_stored {c : SimpleCache} {now : ℚ} {key : List Char}
    {v : ResultRec} (h : (SimpleCache.get c now key).1 = some v) :
    storedValue c key = some v := by
  unfold SimpleCache.get at h
  revert h
  match hl : lookupEntry c key with
  | none => intro h; simp at h
  | some (w, ts) =>
    intro h
    by_cases hexp : now - ts > c.ttl
    · simp [hexp] at h
    · simp only [hexp, if_neg, Option.some.injEq] at h
      rw [storedValue, hl, ← h]
      rfl

theorem storedValue_mem {c : SimpleCache} {key : List Char} {v : ResultRec}
    (h : storedValue c key = some v) :
    ∃ e, e ∈ c.store ∧ e.2.1 = v := by
  unfold storedValue lookupEntry at h
  rcases hf : c.store.find? (fun e => e.1 == key) with - | e
  · rw [hf] at h
    simp at h
  · rw [hf] at h
    simp only [Option.map_some', Option.some.injEq] at h
    exact ⟨e, List.mem_of_find?_eq_some hf, h⟩

theorem storeSet_mem {l : List (List Char × ResultRec × ℚ)} {k : List Char}
    {v : ResultRec} {ts : ℚ} {e : List Char × ResultRec × ℚ}
    (h : e ∈ storeSet l k v ts) : e ∈ l ∨ e = (k, v, ts) := by
  induction l with
  | nil =>
    simp only [storeSet, List.mem_singleton] at h
    exact Or.inr h
  | cons x xs ih =>
    simp only [storeSet] at h
    by_cases hx : x.1 = k
    · rw [if_pos hx] at h
      rcases List.mem_cons.1 h with h1 | h1
      · exact Or.inr h1
      · exact Or.inl (List.mem_cons_of_mem _ h1)
    · rw [if_neg hx] at h
      rcases List.mem_cons.1 h with h1 | h1
      · exact Or.inl (h1 ▸ List.mem_cons_self _ _)
      · rcases ih h1 with h2 | h2
        · exact Or.inl (List.mem_cons_of_mem _ h2)
        · exact Or.inr h2

theorem set_store_mem {c : SimpleCache} {key : List Char} {v : ResultRec}
    {now : ℚ} {e : List Char × ResultRec × ℚ}
    (h : e ∈ (SimpleCache.set c key v now).store) :
    e ∈ c.store ∨ e = (key, v, now) := by
  unfold SimpleCache.set at h
  simp only at h
  rcases storeSet_mem h with h1 | h1
  · by_cases hlen : c.store.length > 1000
    · rw [if_pos hlen] at h1
      exact Or.inl (List.mem_filter.1 h1).1
    · rw [if_neg hlen] at h1
      exact Or.inl h1
  · exact Or.inr h1

/-- The success shape of §3: `title`, `price` and `all_prices` present
(`url`, `timestamp`, `load_time_ms` are always present by construction
of `ResultRec`). -/
def successShape (r : ResultRec) : Prop :=
  r.title.isSome = true ∧ r.price.isSome = true ∧ r.all_prices.isSome = true

/-- The failure record shape actually produced by the source: `error`
present, `title` / `price` / `all_prices` absent. -/
def failureShape (r : ResultRec) : Prop :=
  r.error.isSome = true ∧ r.title = none ∧ r.price = none ∧
    r.all_prices = none

/-- Invariant: every value stored in the cache is a success record of
the §3 shape (only success results are ever cached). -/
def CacheWF (c : SimpleCache) : Prop :=
  ∀ e ∈ c.store, e.2.1.success = true ∧ successShape e.2.1

/-- Invariant: no value stored in the cache carries the `cache_hit`
key. -/
def NoHitFlag (c : SimpleCache) : Prop :=
  ∀ e ∈ c.store, e.2.1.cache_hit = none

/-- Claim C3's reading of the generic fallback, written from the spec's
words: the threshold scan is taken over the deduplicated,
first-occurrence-ordered, 10-capped `allPrices` sequence rather than
over the raw token list. -/
def fallbackClaim (text : List Char) : List Char :=
  match ((dedupFirst (findAllPrices text)).take 10).find? exceeds100 with
  | some t => t
  | none =>
    match (dedupFirst (findAllPrices text)).take 10 with
    | [] => []
    | p :: _ => p

/-- Claim C4's numeric test, written from the claim's words: purely
numeric with optional thousands separators and at most two decimal
digits. -/
def isNumericAtMost2dp (s : List Char) : Bool :=
  !(s.takeWhile isDigitComma).isEmpty &&
    (match s.dropWhile isDigitComma with
     | [] => true
     | '.' :: ds => !ds.isEmpty && decide (ds.length ≤ 2) && ds.all isDigit
     | _ => false)

/-- Claim C4's per-selector step, written from the claim's words: the
same two-step treatment (numeric → currency prefix; otherwise search)
for every selector of either list. -/
def claimSelectorStep (page : PageData) (sel : List Char) :
    Option (List Char) :=
  match page.query sel with
  | QueryOutcome.elem (some t0) =>
    if isNumericAtMost2dp (pyStrip t0) then some ('$' :: pyStrip t0)
    else (findAllPrices (pyStrip t0)).head?
  | _ => none

/-- Claim C4's version of the structured extractor: uniform per-selector
steps over the site-specific list followed by the generic list. -/
def extract_structured_price_claim (page : PageData) (url : List Char) :
    List Char :=
  (firstSome (claimSelectorStep page)
    ((if strContains (pyLower url) jbhifiS then jbSelectors else []) ++
      genericSelectors)).getD []

/-- Handler kind of a selector in the amended description of the
structured extractor. -/
inductive SelKind where
  | siteNumeric : SelKind
  | metaAttr : SelKind
  | searchOnly : SelKind

/-- Amended per-selector step: site-specific selectors normalize purely
numeric stripped text (exactly zero or two decimals) with the currency
prefix and otherwise search; the `meta` selector only normalizes a
numeric `content` attribute (any number of decimals); the remaining
generic selectors only search the element text. -/
def amendedStep (page : PageData) : List Char × SelKind →
    Option (List Char)
  | (sel, SelKind.siteNumeric) =>
    match page.query sel with
    | QueryOutcome.elem (some t0) =>
      if isNumericPrice2dp (pyStrip t0) then some ('$' :: pyStrip t0)
      else (findAllPrices (pyStrip t0)).head?
    | _ => none
  | (sel, SelKind.metaAttr) =>
    match page.query sel with
    | QueryOutcome.elem (some content) =>
      if isNumericContent content then some ('$' :: content) else none
    | _ => none
  | (sel, SelKind.searchOnly) =>
    match page.query sel with
    | QueryOutcome.elem (some t) => (findAllPrices t).head?
    | _ => none

/-- The selector schedule of the amended description: site-specific
selectors (for `jbhifi` URLs) before generic ones, the `meta` selector
tagged as attribute-based. -/
def taggedSelectors (ul : List Char) : List (List Char × SelKind) :=
  (if strContains ul jbhifiS then
     jbSelectors.map (fun s => (s, SelKind.siteNumeric))
   else []) ++
  genericSelectors.map (fun s =>
    if "meta".toList.isPrefixOf s then (s, SelKind.metaAttr)
    else (s, SelKind.searchOnly))

/-- The amended description of the structured extractor as a single
first-hit pass over the tagged selector schedule. -/
def extract_structured_price_amended (page : PageData) (url : List Char) :
    List Char :=
  (firstSome (amendedStep page) (taggedSelectors (pyLower url))).getD []

/-- An empty cache with the production TTL of 300 seconds. -/
def emptyCache : SimpleCache := { ttl := 300, store := [] }

/-- A request whose fetch phase raises (e.g. a navigation timeout). -/
def envFail : ScrapeEnv :=
  { url := "https://fail.example.com/p".toList,
    fetch := Except.error "Timeout 15000ms exceeded.".toList,
    tNow := 0, loadMs := 1500 }

/-- A generic URL used by several concrete runs. -/
def urlGen : List Char := "https://example.com/p".toList

/-- A page whose `.price` element text carries a `$`-prefixed price. -/
def pageOk : PageData :=
  { query := fun s =>
      if s = ".price".toList then QueryOutcome.elem (some "$5.00".toList)
      else QueryOutcome.notFound,
    text := "$45.00 $199.99 $12.50".toList,
    title := " Widget ".toList }

/-- A successful request against `pageOk`. -/
def envOk : ScrapeEnv :=
  { url := urlGen, fetch := Except.ok pageOk, tNow := 0, loadMs := 5 }

/-- Price tokens used by the cache-aliasing run. -/
def tokA : List Char := "$49.00".toList

def tokB : List Char := "$9.00".toList

/-- A success record whose `all_prices` list lives at heap address 0. -/
def r2 : ResultRec :=
  { success := true, url := urlGen, title := some "W".toList,
    price := some tokA, all_prices := some 0, timestamp := 0,
    load_time_ms := 5 }

/-- A cache holding `r2` inserted at time 0. -/
def c2cache : SimpleCache := { ttl := 300, store := [(urlGen, r2, 0)] }

/-- The heap backing `r2`'s `all_prices` list. -/
def heap2 : Heap := [[tokA]]

/-- Eleven distinct tokens where only the eleventh exceeds 100. -/
def tex3 : List Char := "$1 $2 $3 $4 $5 $6 $7 $8 $9 $10 $200.00".toList

/-- The spec's Scenario C text. -/
def texC : List Char := "$45.00 $199.99 $12.50".toList

/-- A page whose generic `.price` element text is numeric-only. -/
def pageC4 : PageData :=
  { query := fun s =>
      if s = ".price".toList then QueryOutcome.elem (some "899".toList)
      else QueryOutcome.notFound,
    text := [], title := [] }

/-- A JB Hi-Fi product URL. -/
def urlJB : List Char := "https://www.jbhifi.com.au/products/tv".toList

/-- The spec's Scenario B text. -/
def texB : List Char := "Ticket $129.00 $89.00 save now".toList

/-- A Harvey Norman product URL. -/
def urlHN : List Char := "https://www.harveynorman.com.au/tv.html".toList

/-- The spec's Scenario A text (anchor present, `FROM` after it). -/
def texA : List Char :=
  "$499.00 stuff Available on eBay FROM $399.00".toList

/-- A cache with one entry inserted at time 0, read far past the TTL. -/
def c9cache : SimpleCache := { ttl := 300, store := [("k".toList, r2, 0)] }

theorem lookupEntry_pyDel (c : SimpleCache) (key : List Char) :
    lookupEntry { c with store := pyDel c.store key } key = none := by
  have hfind : (pyDel c.store key).find? (fun e => e.1 == key) = none := by
    rw [List.find?_eq_none]
    intro x hx
    have h2 := (List.mem_filter.1 hx).2
    simp only [Bool.not_eq_true'] at h2
    simp [h2]
  simp [lookupEntry, hfind]

/-- C9: `get` reports absent for unknown keys; a present entry whose age
strictly exceeds the TTL is removed and reported absent; otherwise the
stored value is returned and the cache is unchanged. -/
theorem c9_cache_get_semantics (c : SimpleCache) (now : ℚ) (key : List Char) :
    (lookupEntry c key = none → SimpleCache.get c now key = (none, c)) ∧
    (∀ v ts, lookupEntry c key = some (v, ts) →
      (now - ts > c.ttl →
        (SimpleCache.get c now key).1 = none ∧
        lookupEntry (SimpleCache.get c now key).2 key = none) ∧
      (¬ now - ts > c.ttl →
        SimpleCache.get c now key = (some v, c))) := by
  refine ⟨?_, ?_⟩
  · intro hnone
    unfold SimpleCache.get
    rw [hnone]
  · intro v ts hsome
    refine ⟨?_, ?_⟩
    · intro hexp
      refine ⟨?_, ?_⟩
      · unfold SimpleCache.get
        rw [hsome]
        simp [hexp]
      · unfold SimpleCache.get
        rw [hsome]
        simp only [hexp, if_pos]
        exact lookupEntry_pyDel c key
    · intro hexp
      unfold SimpleCache.get
      rw [hsome]
      simp [hexp]

/-- C9 witness: a concrete expired entry is reported absent and evicted
by the read. -/
theorem c9_cache_get_semantics_witness :
    (SimpleCache.get c9cache 1000 "k".toList).1 = none ∧
    lookupEntry (SimpleCache.get c9cache 1000 "k".toList).2 "k".toList =
      none :=
  ((c9_cache_get_semantics c9cache 1000 "k".toList).2 r2 0 (by rfl)).1
    (by norm_num [c9cache])

theorem c2cache_get : (SimpleCache.get c2cache 0 urlGen).1 = some r2 := by
  unfold SimpleCache.get
  have hl : lookupEntry c2cache urlGen = some (r2, 0) := by rfl
  rw [hl]
  have hc : ¬((0 : ℚ) - 0 > c2cache.ttl) := by norm_num [c2cache]
  simp only [hc, if_false, gt_iff_lt, zero_sub, neg_lt, Left.neg_neg_iff]
  rw [if_neg (by norm_num [c2cache])]

/-- C2 counterexample: a cache read returns a record sharing the
`all_prices` heap address with the stored entry, so an in-place mutation
of the returned result's nested list changes the list observed through
the stored entry — the read is not a structurally independent deep
copy. -/
theorem c2_deep_copy_cex :
    (SimpleCache.get c2cache 0 urlGen).1 = some r2 ∧
    r2.all_prices = some 0 ∧
    derefAllPrices heap2 r2 = some [tokA] ∧
    derefAllPrices (heap2.set 0 [tokA, tokB]) r2 = some [tokA, tokB] ∧
    ([tokA, tokB] : List (List Char)) ≠ [tokA] := by
  refine ⟨c2cache_get, rfl, rfl, rfl, by decide⟩

/-- C2 (amended): a cache read returns a top-level (shallow) copy: the
store is unchanged by a non-expired read, and updating top-level fields
of the returned record (such as `cache_hit`) cannot affect the stored
entry; the nested `all_prices` list, however, is shared by reference
with the stored entry. -/
theorem c2_shallow_copy_amended (c : SimpleCache) (now : ℚ)
    (key : List Char) (v : ResultRec)
    (hget : (SimpleCache.get c now key).1 = some v) :
    storedValue c key = some v ∧
    (SimpleCache.get c now key).2 = c ∧
    ∀ b : Option Bool,
      ({ v with cache_hit := b } : ResultRec).all_prices = v.all_prices :=
  ⟨get_some_stored hget,
   get_isSome_state c now key (by rw [hget]; rfl),
   fun _ => rfl⟩

/-- C2 witness: the amended statement at the concrete one-entry cache. -/
theorem c2_shallow_copy_witness :
    storedValue c2cache urlGen = some r2 ∧
    (SimpleCache.get c2cache 0 urlGen).2 = c2cache ∧
    ∀ b : Option Bool,
      ({ r2 with cache_hit := b } : ResultRec).all_prices = r2.all_prices :=
  c2_shallow_copy_amended c2cache 0 urlGen r2 c2cache_get

/-- C1 counterexample: on a fetch failure the returned record does not
match the full §3 shape — `title`, `price` and `all_prices` are absent
(the record carries only `success`, `url`, `error`, `timestamp`,
`load_time_ms`). -/
theorem c1_failure_record_missing_fields_cex :
    (extract_price envFail emptyCache []).1.success = false ∧
    (extract_price envFail emptyCache []).1.title = none ∧
    (extract_price envFail emptyCache []).1.price = none ∧
    (extract_price envFail emptyCache []).1.all_prices = none ∧
    (extract_price envFail emptyCache []).1.error.isSome = true :=
  ⟨rfl, rfl, rfl, rfl, rfl⟩

/-- C1 (amended): `extract_price` is total (never raises — every
execution path of the model returns a record), and, provided every
cached value is a success record (which `extract_price` itself
preserves): a returned success record carries `title`, `price` and
`all_prices` (with `url`, `timestamp`, `load_time_ms` always present by
construction), while a returned failure record carries `error` and the
same `timestamp` / `load_time_ms` fields but no `title`, `price` or
`all_prices`. -/
theorem c1_result_shape_amended (env : ScrapeEnv) (c : SimpleCache)
    (h : Heap) (hwf : CacheWF c) :
    ((extract_price env c h).1.success = true →
      successShape (extract_price env c h).1) ∧
    ((extract_price env c h).1.success = false →
      failureShape (extract_price env c h).1) ∧
    CacheWF (extract_price env c h).2.1 := by
  rcases hg : (SimpleCache.get c env.tNow (fingerprint env.url)).1
    with - | cached
  · cases hf : env.fetch with
    | error msg =>
      simp only [extract_price, hg, hf]
      refine ⟨?_, ?_, ?_⟩
      · intro hs
        exact absurd hs (by simp)
      · intro _
        exact ⟨rfl, rfl, rfl, rfl⟩
      · intro e he
        exact hwf e (get_state_store_subset he)
    | ok page =>
      simp only [extract_price, hg, hf]
      refine ⟨?_, ?_, ?_⟩
      · intro _
        exact ⟨rfl, rfl, rfl⟩
      · intro hs
        exact absurd hs (by simp)
      · intro e he
        rcases set_store_mem he with h1 | h1
        · exact hwf e (get_state_store_subset h1)
        · rw [h1]
          exact ⟨rfl, rfl, rfl, rfl⟩
  · simp only [extract_price, hg]
    have hst := get_some_stored hg
    obtain ⟨e, hmem, hev⟩ := storedValue_mem hst
    have hsh := hwf e hmem
    have hsucc : cached.success = true := hev ▸ hsh.1
    have hshape : successShape cached := hev ▸ hsh.2
    refine ⟨?_, ?_, ?_⟩
    · intro _
      exact hshape
    · intro hfalse
      rw [show ({ cached with cache_hit := some true } :
            ResultRec).success = cached.success from rfl, hsucc] at hfalse
      exact absurd hfalse (by simp)
    · have hstate := get_isSome_state c env.tNow (fingerprint env.url)
        (by rw [hg]; rfl)
      rw [hstate]
      exact hwf

/-- C1 witness: the amended statement at a concrete failing fetch
against the empty cache. -/
theorem c1_result_shape_witness :
    ((extract_price envFail emptyCache []).1.success = true →
      successShape (extract_price envFail emptyCache []).1) ∧
    ((extract_price envFail emptyCache []).1.success = false →
      failureShape (extract_price envFail emptyCache []).1) ∧
    CacheWF (extract_price envFail emptyCache []).2.1 :=
  c1_result_shape_amended envFail emptyCache []
    (fun e he => absurd he (by simp [emptyCache]))

/-- C10: provided no stored value carries the `cache_hit` key (which
`extract_price` itself preserves): the returned record carries
`cache_hit = true` exactly when the request was served from the cache; a
freshly computed (miss) result carries no `cache_hit` key; and no value
stored in the cache afterwards carries it either. -/
theorem c10_cache_hit_flag (env : ScrapeEnv) (c : SimpleCache) (h : Heap)
    (hinv : NoHitFlag c) :
    ((extract_price env c h).1.cache_hit = some true ↔
      (SimpleCache.get c env.tNow (fingerprint env.url)).1.isSome = true) ∧
    ((SimpleCache.get c env.tNow (fingerprint env.url)).1 = none →
      (extract_price env c h).1.cache_hit = none) ∧
    NoHitFlag (extract_price env c h).2.1 := by
  rcases hg : (SimpleCache.get c env.tNow (fingerprint env.url)).1
    with - | cached
  · cases hf : env.fetch with
    | error msg =>
      simp only [extract_price, hg, hf]
      refine ⟨by simp, fun _ => trivial, ?_⟩
      intro e he
      exact hinv e (get_state_store_subset he)
    | ok page =>
      simp only [extract_price, hg, hf]
      refine ⟨by simp, fun _ => trivial, ?_⟩
      intro e he
      rcases set_store_mem he with h1 | h1
      · exact hinv e (get_state_store_subset h1)
      · rw [h1]
  · simp only [extract_price, hg]
    refine ⟨by simp, ?_, ?_⟩
    · intro hnone
      exact absurd hnone (by simp)
    · have hstate := get_isSome_state c env.tNow (fingerprint env.url)
        (by rw [hg]; rfl)
      rw [hstate]
      exact hinv

/-- C10 witness: a concrete miss against the empty cache. -/
theorem c10_cache_hit_flag_witness :
    ((extract_price envOk emptyCache []).1.cache_hit = some true ↔
      (SimpleCache.get emptyCache envOk.tNow
        (fingerprint envOk.url)).1.isSome = true) ∧
    ((SimpleCache.get emptyCache envOk.tNow
        (fingerprint envOk.url)).1 = none →
      (extract_price envOk emptyCache []).1.cache_hit = none) ∧
    NoHitFlag (extract_price envOk emptyCache []).2.1 :=
  c10_cache_hit_flag envOk emptyCache []
    (fun e he => absurd he (by simp [emptyCache]))

/-- C7: on a cache miss with a successful fetch, the final price is the
structured extractor's result whenever that is non-empty — and the
short-circuit `or` then never consults the heuristic extractor — and is
the heuristic extractor's result otherwise. -/
theorem c7_merge_precedence (env : ScrapeEnv) (c : SimpleCache) (h : Heap)
    (page : PageData) (hok : env.fetch = Except.ok page)
    (hmiss : (SimpleCache.get c env.tNow (fingerprint env.url)).1 = none) :
    (extract_structured_price page env.url ≠ [] →
      (extract_price env c h).1.price =
        some (extract_structured_price page env.url) ∧
      (mainPriceChoice (extract_structured_price page env.url)
        (fun _ => find_main_price page.text (findAllPrices page.text)
          env.url)).2 = false) ∧
    (extract_structured_price page env.url = [] →
      (extract_price env c h).1.price =
        some (find_main_price page.text (findAllPrices page.text)
          env.url) ∧
      (mainPriceChoice (extract_structured_price page env.url)
        (fun _ => find_main_price page.text (findAllPrices page.text)
          env.url)).2 = true) := by
  simp only [extract_price, hmiss, hok]
  constructor
  · intro hne
    simp [mainPriceChoice, hne]
  · intro heq
    simp [mainPriceChoice, heq]

/-- C7 witness: a concrete page whose `.price` selector yields
`"$5.00"`, so the structured result wins and the heuristic is not
consulted. -/
theorem c7_merge_precedence_witness :
    (extract_price envOk emptyCache []).1.price =
      some (extract_structured_price pageOk envOk.url) ∧
    (mainPriceChoice (extract_structured_price pageOk envOk.url)
      (fun _ => find_main_price pageOk.text (findAllPrices pageOk.text)
        envOk.url)).2 = false :=
  (c7_merge_precedence envOk emptyCache [] pageOk rfl rfl).1 (by decide)

/-- C8: on a cache miss with a successful fetch, the `all_prices` list of
the returned success record has no duplicates, is a subsequence of the
raw token sequence of the page text ordered by first appearance, and has
at most 10 entries. -/
theorem c8_all_prices_props (env : ScrapeEnv) (c : SimpleCache) (h : Heap)
    (page : PageData) (hok : env.fetch = Except.ok page)
    (hmiss : (SimpleCache.get c env.tNow (fingerprint env.url)).1 = none) :
    derefAllPrices (extract_price env c h).2.2 (extract_price env c h).1 =
      some ((dedupFirst (findAllPrices page.text)).take 10) ∧
    ((dedupFirst (findAllPrices page.text)).take 10).Nodup ∧
    ((dedupFirst (findAllPrices page.text)).take 10).length ≤ 10 ∧
    List.Sublist ((dedupFirst (findAllPrices page.text)).take 10)
      (findAllPrices page.text) ∧
    ((dedupFirst (findAllPrices page.text)).take 10).Pairwise
      (fun a b => firstIdx (findAllPrices page.text) a <
        firstIdx (findAllPrices page.text) b) := by
  refine ⟨?_, ?_, ?_, ?_, ?_⟩
  · simp only [extract_price, hmiss, hok, derefAllPrices]
    exact getElem?_append_singleton h _
  · exact List.Nodup.sublist (List.take_sublist _ _) (nodup_dedupSeen [] _)
  · exact List.length_take_le _ _
  · exact (List.take_sublist _ _).trans (dedupSeen_sublist [] _)
  · exact List.Pairwise.sublist (List.take_sublist _ _)
      (pairwise_firstIdx_dedupSeen [] _)

/-- C8 witness: the concrete successful run against `pageOk`. -/
theorem c8_all_prices_props_witness :
    derefAllPrices (extract_price envOk emptyCache []).2.2
      (extract_price envOk emptyCache []).1 =
      some ((dedupFirst (findAllPrices pageOk.text)).take 10) ∧
    ((dedupFirst (findAllPrices pageOk.text)).take 10).Nodup ∧
    ((dedupFirst (findAllPrices pageOk.text)).take 10).length ≤ 10 ∧
    List.Sublist ((dedupFirst (findAllPrices pageOk.text)).take 10)
      (findAllPrices pageOk.text) ∧
    ((dedupFirst (findAllPrices pageOk.text)).take 10).Pairwise
      (fun a b => firstIdx (findAllPrices pageOk.text) a <
        firstIdx (findAllPrices pageOk.text) b) :=
  c8_all_prices_props envOk emptyCache [] pageOk rfl rfl

/-- C3 counterexample: with eleven distinct tokens of which only the
eleventh exceeds 100, the code scans the raw token list and returns that
eleventh token, while the claim's deduplicated 10-capped sequence no
longer contains it, so the claim predicts the first token instead. -/
theorem c3_capped_fallback_cex :
    find_main_price tex3 (findAllPrices tex3) urlGen = "$200.00".toList ∧
    fallbackClaim tex3 = "$1".toList ∧
    find_main_price tex3 (findAllPrices tex3) urlGen ≠ fallbackClaim tex3 := by
  refine ⟨by decide, by decide, by decide⟩

/-- C3 (amended): when no site-class rule yields a price, the heuristic
extractor returns the first token of the raw `findall` sequence (with
duplicates, uncapped) whose numeric value exceeds 100; if none does, the
first token of that sequence; if the sequence is empty, the empty
string.  (The first token of the raw sequence and of the deduplicated
capped sequence coincide, so only the threshold scan differs from the
claim.) -/
theorem c3_fallback_raw_amended (text url : List Char)
    (hsite : siteRulePrice text (pyLower url) = none) :
    find_main_price text (findAllPrices text) url =
      ((findAllPrices text).find? exceeds100).getD
        ((findAllPrices text).headD []) := by
  unfold find_main_price
  rw [hsite]
  unfold genericFallback
  rw [fallbackLoop_eq_find]
  rcases hf : (findAllPrices text).find? exceeds100 with - | t
  · cases hl : findAllPrices text with
    | nil => rfl
    | cons p ps => simp [List.headD]
  · rfl

/-- C3 witness: the spec's Scenario C — the first raw token exceeding
100 is returned for a generic URL. -/
theorem c3_fallback_raw_witness :
    find_main_price texC (findAllPrices texC) urlGen = "$199.99".toList := by
  rw [c3_fallback_raw_amended texC urlGen (by decide)]
  decide

theorem firstSome_append {α β : Type} (f : α → Option β) (l1 l2 : List α) :
    firstSome f (l1 ++ l2) = orElseO (firstSome f l1) (firstSome f l2) := by
  induction l1 with
  | nil => rfl
  | cons x xs ih =>
    simp only [List.cons_append, firstSome]
    cases f x with
    | some v => rfl
    | none =>
      simp only [orElseO]
      exact ih

theorem firstSome_map {α β γ : Type} (f : β → Option γ) (g : α → β)
    (l : List α) :
    firstSome f (l.map g) = firstSome (fun x => f (g x)) l := by
  induction l with
  | nil => rfl
  | cons x xs ih => simp only [List.map_cons, firstSome, ih]

theorem firstSome_congr {α β : Type} {f g : α → Option β} (l : List α)
    (h : ∀ x ∈ l, f x = g x) : firstSome f l = firstSome g l := by
  induction l with
  | nil => rfl
  | cons x xs ih =>
    simp only [firstSome]
    rw [h x (List.mem_cons_self x xs),
      ih (fun y hy => h y (List.mem_cons_of_mem x hy))]

/-- C4 counterexample: a generic URL whose `.price` element text is the
numeric-only `"899"`.  The claim's uniform per-selector steps would
normalize it to `"$899"`, but the code's generic branch only searches
for a `$`-prefixed token and therefore returns the empty string. -/
theorem c4_uniform_steps_cex :
    extract_structured_price pageC4 urlGen = [] ∧
    extract_structured_price_claim pageC4 urlGen = "$899".toList ∧
    extract_structured_price_claim pageC4 urlGen ≠
      extract_structured_price pageC4 urlGen := by
  refine ⟨by decide, by decide, by decide⟩

/-- C4 (amended): the per-selector steps differ between the lists: a
site-specific (jbhifi) selector normalizes purely numeric stripped text
(exactly zero or two decimal digits) with the currency prefix and
otherwise searches for a `$`-token; the generic `meta` selector only
normalizes a numeric `content` attribute (any number of decimals); the
remaining generic selectors only search the element text.  Site-specific
selectors are tried before generic ones, the first success wins, and
exhausting both lists yields the empty string — the code equals the
single first-hit pass over this tagged schedule. -/
theorem c4_structured_amended (page : PageData) (url : List Char) :
    extract_structured_price page url =
      extract_structured_price_amended page url := by
  unfold extract_structured_price extract_structured_price_amended
    taggedSelectors
  have hgen : firstSome (amendedStep page)
      (genericSelectors.map (fun s =>
        if "meta".toList.isPrefixOf s then (s, SelKind.metaAttr)
        else (s, SelKind.searchOnly))) =
      firstSome (genericSelectorStep page) genericSelectors := by
    rw [firstSome_map]
    refine firstSome_congr _ (fun s _ => ?_)
    by_cases hm : "meta".toList.isPrefixOf s
    · rw [if_pos hm]
      unfold genericSelectorStep
      rw [if_pos hm]
      rfl
    · rw [if_neg hm]
      unfold genericSelectorStep
      rw [if_neg hm]
      rfl
  have hjbstep : firstSome (amendedStep page)
      (jbSelectors.map (fun s => (s, SelKind.siteNumeric))) =
      firstSome (jbSelectorStep page) jbSelectors := by
    rw [firstSome_map]
    exact firstSome_congr _ (fun s _ => rfl)
  by_cases hjb : strContains (pyLower url) jbhifiS
  · rw [if_pos hjb, if_pos hjb, firstSome_append, hjbstep, hgen]
    rcases hs : firstSome (jbSelectorStep page) jbSelectors with - | p
    · simp [orElseO]
    · simp [orElseO]
  · rw [if_neg hjb, if_neg hjb]
    rw [List.nil_append, hgen]

theorem harveyRule_none_of_not_hn {text ul : List Char}
    (h : strContains ul harveyS = false) : harveyRule text ul = none := by
  simp [harveyRule, h]

theorem jbRule_none_of_not_jb {text ul : List Char}
    (h : strContains ul jbhifiS = false) : jbRule text ul = none := by
  simp [jbRule, h]

theorem owRule_none_of_not_ow {text ul : List Char}
    (h : strContains ul owS = false) : owRule text ul = none := by
  simp [owRule, h]

theorem jbRule_some_find_main (text url : List Char)
    (ap : List (List Char)) {p : List Char}
    (hhn : strContains (pyLower url) harveyS = false)
    (hjbr : jbRule text (pyLower url) = some p) :
    find_main_price text ap url = p := by
  unfold find_main_price siteRulePrice
  rw [harveyRule_none_of_not_hn hhn, hjbr]
  rfl

/-- C5: for a JB Hi-Fi URL (with the Harvey Norman branch not
applicable): if the login-prompt phrase is present, the heuristic
extractor returns the last currency token of the 300 characters
preceding it (when one exists); otherwise, if `Ticket` is present, it
returns the second numeric token of the 100-character window starting at
the label, `$`-prefixed, or the first if only one exists. -/
theorem c5_jbhifi_heuristic (text url : List Char) (ap : List (List Char))
    (hjb : strContains (pyLower url) jbhifiS = true)
    (hhn : strContains (pyLower url) harveyS = false) :
    (∀ i p, strFind text loginS = some i →
      (findAllPrices (pySlice text (i - 300) i)).getLast? = some p →
      find_main_price text ap url = p) ∧
    (strContains text loginS = false →
      ∀ i, strFind text ticketS = some i →
        (∀ n0, findAllNums (pySlice text i (i + 100)) = [n0] →
          find_main_price text ap url = '$' :: n0) ∧
        (∀ n0 n1 rest,
          findAllNums (pySlice text i (i + 100)) = n0 :: n1 :: rest →
          find_main_price text ap url = '$' :: n1)) := by
  constructor
  · intro i p hi hp
    have hlog : strContains text loginS = true := by
      unfold strContains
      rw [hi]
      rfl
    refine jbRule_some_find_main text url ap hhn ?_
    simp [jbRule, hjb, hlog, hi, hp, orElseO]
  · intro hlogF i hi
    have ht : strContains text ticketS = true := by
      unfold strContains
      rw [hi]
      rfl
    constructor
    · intro n0 hnums
      refine jbRule_some_find_main text url ap hhn ?_
      simp [jbRule, hjb, hlogF, ht, hi, hnums, orElseO]
    · intro n0 n1 rest hnums
      refine jbRule_some_find_main text url ap hhn ?_
      simp [jbRule, hjb, hlogF, ht, hi, hnums, orElseO]

/-- C5 witness: the spec's Scenario B — `"Ticket $129.00 $89.00 save
now"` on a JB Hi-Fi URL yields the second numeric token, `$`-prefixed. -/
theorem c5_jbhifi_heuristic_witness :
    find_main_price texB (findAllPrices texB) urlJB = "$89.00".toList :=
  (((c5_jbhifi_heuristic texB urlJB (findAllPrices texB) (by decide)
      (by decide)).2 (by decide) 0 (by decide)).2
    "129.00".toList "89.00".toList [] (by decide))

theorem find_main_price_harvey (text url : List Char)
    (ap : List (List Char)) {mi : Nat}
    (hhn : strContains (pyLower url) harveyS = true)
    (hav : strFind text availS = some mi)
    (hjbF : strContains (pyLower url) jbhifiS = false)
    (howF : strContains (pyLower url) owS = false) :
    find_main_price text ap url =
      match harveyInner (pySlice text (mi - 500) mi) with
      | some p => p
      | none => genericFallback ap := by
  have hcav : strContains text availS = true := by
    unfold strContains
    rw [hav]
    rfl
  unfold find_main_price siteRulePrice
  rw [jbRule_none_of_not_jb hjbF, owRule_none_of_not_ow howF]
  unfold harveyRule
  rw [hhn, hcav, hav]
  rcases hw : harveyInner (pySlice text (mi - 500) mi) with - | p <;>
    simp [hw, orElseO]

/-- C6: for a Harvey Norman URL whose text contains the availability
marker (and with the other site classes not applicable), the heuristic
extractor searches the 500 characters before the first marker
occurrence, preferring the EASAVE-suffixed price, else the first price
after the last `FROM`, else the last price token of the window, and
falls through to the generic fallback when the window has no match. -/
theorem c6_harvey_heuristic (text url : List Char) (ap : List (List Char))
    (mi : Nat)
    (hhn : strContains (pyLower url) harveyS = true)
    (hav : strFind text availS = some mi)
    (hjbF : strContains (pyLower url) jbhifiS = false)
    (howF : strContains (pyLower url) owS = false) :
    (∀ p, easaveStep (pySlice text (mi - 500) mi) = some p →
      find_main_price text ap url = p) ∧
    (easaveStep (pySlice text (mi - 500) mi) = none →
      ∀ p, fromStep (pySlice text (mi - 500) mi) = some p →
        find_main_price text ap url = p) ∧
    (easaveStep (pySlice text (mi - 500) mi) = none →
      fromStep (pySlice text (mi - 500) mi) = none →
      (∀ p,
        (findAllPrices (pySlice text (mi - 500) mi)).getLast? = some p →
        find_main_price text ap url = p) ∧
      ((findAllPrices (pySlice text (mi - 500) mi)).getLast? = none →
        find_main_price text ap url = genericFallback ap)) := by
  have hred := find_main_price_harvey text url ap hhn hav hjbF howF
  refine ⟨?_, ?_, ?_⟩
  · intro p hp
    rw [hred]
    simp [harveyInner, hp, orElseO]
  · intro he p hp
    rw [hred]
    simp [harveyInner, he, hp, orElseO]
  · intro he hf
    constructor
    · intro p hp
      rw [hred]
      simp [harveyInner, he, hf, hp, orElseO]
    · intro hp
      rw [hred]
      simp [harveyInner, he, hf, hp, orElseO]

/-- C6 witness: the spec's Scenario A text (where `FROM` lies after the
anchor and hence outside the window): the last window token wins. -/
theorem c6_harvey_heuristic_witness :
    find_main_price texA (findAllPrices texA) urlHN = "$499.00".toList :=
  (((c6_harvey_heuristic texA urlHN (findAllPrices texA) 14 (by decide)
      (by decide) (by decide) (by decide)).2.2 (by decide) (by decide)).1
    "$499.00".toList (by decide))
